import Mathlib

/-
  Verification development for the VoluMapper repository
  (src/aws_poller/__main__.py and src/pollers/utils.py).

  The Python program is shallowly embedded:
  * filenames are lists of characters; a directory is an association list
    from filename to file content;
  * `int(s)` on a decimal string and `"{}".format(i)` are modelled by
    `pyIntChars` and `intReprChars`, proved mutually inverse;
  * raised exceptions are `Except PyErr`;
  * the I/O actions performed by `track_results` are recorded in a trace of
    `StoreOp` values so that properties such as "no file is ever removed on
    the fetch path" and "the write goes straight to the final path, with no
    rename" can be stated.
-/

namespace VoluMapper

/-- Kinds of Python exceptions that the embedded code can raise. `apiErr`
stands for an arbitrary exception raised by the remote boto API call. -/
inductive PyErr where
  | attributeErr : PyErr
  | nameErr : PyErr
  | ioErr : PyErr
  | unpicklingErr : PyErr
  | apiErr : PyErr
deriving DecidableEq, Repr

/-! ### Python `int()` on decimal strings, and decimal rendering

`utils.get_last_file_timestamp` and `utils.cleanup_old_data` both evaluate
`int(filename.split(".")[0])`; `track_results` builds filenames with
`"{}.pkl".format(epoch_secs)`.  We model the decimal parse and the decimal
rendering on `List Char` and prove they are mutually inverse. -/

/-- Numeric value of a decimal digit character. -/
def digitVal (c : Char) : Nat := c.toNat - '0'.toNat

/-- Value of a non-empty all-digit character list, as read left to right;
`none` when the list is empty or contains a non-digit (Python `int` raises
`ValueError` there). -/
def decDigits? (l : List Char) : Option Nat :=
  if l ≠ [] ∧ l.all (fun c => c.isDigit) then
    some (l.foldl (fun a c => 10 * a + digitVal c) 0)
  else none

/-- Python `str.strip` of surrounding whitespace, as `int()` performs
before parsing. -/
def pyStrip (l : List Char) : List Char :=
  ((l.dropWhile Char.isWhitespace).reverse.dropWhile Char.isWhitespace).reverse

/-- Model of Python 2 `int(s)` on a string: strip whitespace, then an
optional sign followed by decimal digits; `none` models `ValueError`. -/
def pyIntChars (s : List Char) : Option Int :=
  let t := pyStrip s
  if t.head? = some '-' then (decDigits? t.tail).map (fun n => -(n : Int))
  else if t.head? = some '+' then (decDigits? t.tail).map (fun n => (n : Int))
  else (decDigits? t).map (fun n => (n : Int))

/-- Fuelled accumulator loop of decimal rendering; the fuel argument only
drives structural recursion and is irrelevant once it is at least `n`. -/
def natReprGo : Nat → Nat → List Char → List Char
  | 0, _, acc => acc
  | fuel + 1, n, acc =>
    if n = 0 then acc else natReprGo fuel (n / 10) (Nat.digitChar (n % 10) :: acc)

/-- Little-endian-to-big-endian accumulator loop of decimal rendering. -/
def natReprAux (n : Nat) (acc : List Char) : List Char := natReprGo n n acc

/-- Decimal rendering of a natural number, as Python `str`/`format`
produce it. -/
def natReprChars (n : Nat) : List Char :=
  if n = 0 then ['0'] else natReprAux n []

/-- Decimal rendering of an integer, as Python `str`/`format` produce it. -/
def intReprChars (t : Int) : List Char :=
  if t < 0 then '-' :: natReprChars t.natAbs else natReprChars t.natAbs

/-! #### Roundtrip: parsing a rendered integer gives it back -/

theorem natReprGo_congr :
    ∀ fuel₁ fuel₂ n acc, n ≤ fuel₁ → n ≤ fuel₂ →
      natReprGo fuel₁ n acc = natReprGo fuel₂ n acc := by
  intro fuel₁
  induction fuel₁ with
  | zero =>
    intro fuel₂ n acc h1 _
    have hn : n = 0 := Nat.le_zero.1 h1
    subst hn
    cases fuel₂ <;> simp [natReprGo]
  | succ f ih =>
    intro fuel₂ n acc h1 h2
    by_cases hn : n = 0
    · subst hn
      cases fuel₂ <;> simp [natReprGo]
    · rcases fuel₂ with _ | f₂
      · omega
      · simp only [natReprGo, if_neg hn]
        have hdiv : n / 10 < n := Nat.div_lt_self (Nat.pos_of_ne_zero hn) (by omega)
        exact ih f₂ (n / 10) _ (by omega) (by omega)

theorem natReprAux_eq (n : Nat) (acc : List Char) :
    natReprAux n acc =
      if n = 0 then acc else natReprAux (n / 10) (Nat.digitChar (n % 10) :: acc) := by
  unfold natReprAux
  rcases n with _ | m
  · simp [natReprGo]
  · simp only [natReprGo, Nat.succ_ne_zero, if_neg (Nat.succ_ne_zero m)]
    have hdiv : (m + 1) / 10 < m + 1 := Nat.div_lt_self (by omega) (by omega)
    exact natReprGo_congr m ((m + 1) / 10) ((m + 1) / 10) _ (by omega) (by omega)

theorem natReprAux_acc (n : Nat) :
    ∀ acc, natReprAux n acc = natReprAux n [] ++ acc := by
  induction n using Nat.strong_induction_on with
  | _ n ih =>
    intro acc
    by_cases h : n = 0
    · rw [natReprAux_eq n acc, natReprAux_eq n [], if_pos h, if_pos h]
      simp
    · have hlt : n / 10 < n := Nat.div_lt_self (Nat.pos_of_ne_zero h) (by omega)
      rw [natReprAux_eq n acc, natReprAux_eq n [], if_neg h, if_neg h,
        ih (n / 10) hlt (Nat.digitChar (n % 10) :: acc),
        ih (n / 10) hlt (Nat.digitChar (n % 10) :: [])]
      simp

theorem digitChar_isDigit (m : Nat) (h : m < 10) : (Nat.digitChar m).isDigit = true := by
  interval_cases m <;> decide

theorem digitVal_digitChar (m : Nat) (h : m < 10) : digitVal (Nat.digitChar m) = m := by
  interval_cases m <;> decide

theorem natReprAux_digits (n : Nat) :
    (natReprAux n []).all (fun c => c.isDigit) = true := by
  induction n using Nat.strong_induction_on with
  | _ n ih =>
    by_cases h : n = 0
    · rw [natReprAux_eq, if_pos h]
      rfl
    · have hlt : n / 10 < n := Nat.div_lt_self (Nat.pos_of_ne_zero h) (by omega)
      rw [natReprAux_eq, if_neg h, natReprAux_acc]
      have hd := ih (n / 10) hlt
      rw [List.all_append, hd]
      simp [digitChar_isDigit (n % 10) (Nat.mod_lt n (by omega))]

theorem natReprChars_digits (n : Nat) :
    (natReprChars n).all (fun c => c.isDigit) = true := by
  by_cases h : n = 0
  · simp [natReprChars, h]
  · simp only [natReprChars, if_neg h]
    exact natReprAux_digits n

theorem natReprAux_ne_nil (n : Nat) (h : n ≠ 0) : natReprAux n [] ≠ [] := by
  rw [natReprAux_eq, if_neg h, natReprAux_acc]
  simp

theorem natReprChars_ne_nil (n : Nat) : natReprChars n ≠ [] := by
  by_cases h : n = 0
  · simp [natReprChars, h]
  · simp only [natReprChars, if_neg h]
    exact natReprAux_ne_nil n h

theorem natReprAux_foldl (n : Nat) :
    ∀ a, (natReprAux n []).foldl (fun a c => 10 * a + digitVal c) a =
      a * 10 ^ (natReprAux n []).length + n := by
  induction n using Nat.strong_induction_on with
  | _ n ih =>
    intro a
    by_cases h : n = 0
    · rw [natReprAux_eq, if_pos h, h]
      simp
    · have hlt : n / 10 < n := Nat.div_lt_self (Nat.pos_of_ne_zero h) (by omega)
      rw [natReprAux_eq, if_neg h, natReprAux_acc]
      rw [List.foldl_append, ih (n / 10) hlt a]
      simp only [List.foldl_cons, List.foldl_nil, List.length_append,
        List.length_cons, List.length_nil]
      rw [digitVal_digitChar (n % 10) (Nat.mod_lt n (by omega))]
      rw [pow_succ]
      have := Nat.div_add_mod n 10
      ring_nf
      omega

theorem decDigits?_natReprChars (n : Nat) :
    decDigits? (natReprChars n) = some n := by
  by_cases h : n = 0
  · simp [natReprChars, h, decDigits?, digitVal]
  · rw [decDigits?, if_pos ⟨natReprChars_ne_nil n, by
      have := natReprChars_digits n; simpa [List.all_eq_true] using this⟩]
    simp only [natReprChars, if_neg h]
    rw [natReprAux_foldl n 0]
    simp

theorem digit_not_whitespace (c : Char) (h : c.isDigit = true) :
    c.isWhitespace = false := by
  by_contra hw
  rw [Bool.not_eq_false] at hw
  unfold Char.isWhitespace at hw
  simp only [Bool.or_eq_true, decide_eq_true_eq] at hw
  rcases hw with ((h1 | h1) | h1) | h1 <;> subst h1 <;> revert h <;> decide

theorem dropWhile_of_none (p : Char → Bool) (l : List Char)
    (h : ∀ c ∈ l, p c = false) : l.dropWhile p = l := by
  cases l with
  | nil => rfl
  | cons x xs =>
    rw [List.dropWhile_cons, h x (by simp)]
    simp

theorem pyStrip_of_no_whitespace (l : List Char)
    (h : ∀ c ∈ l, c.isWhitespace = false) : pyStrip l = l := by
  unfold pyStrip
  rw [dropWhile_of_none _ _ h, dropWhile_of_none, List.reverse_reverse]
  intro c hc
  exact h c (List.mem_reverse.1 hc)

theorem natReprChars_not_whitespace (n : Nat) :
    ∀ c ∈ natReprChars n, c.isWhitespace = false := by
  intro c hc
  have hd := natReprChars_digits n
  rw [List.all_eq_true] at hd
  exact digit_not_whitespace c (hd c hc)

theorem natReprChars_head_digit (n : Nat) :
    ∀ x, (natReprChars n).head? = some x → x.isDigit = true := by
  intro x hx
  have hd := natReprChars_digits n
  rw [List.all_eq_true] at hd
  exact hd x (List.mem_of_mem_head? hx)

theorem pyIntChars_intReprChars (t : Int) :
    pyIntChars (intReprChars t) = some t := by
  have hws : ∀ c ∈ intReprChars t, c.isWhitespace = false := by
    intro c hc
    unfold intReprChars at hc
    split at hc
    · rcases List.mem_cons.1 hc with hc | hc
      · rw [hc]; decide
      · exact natReprChars_not_whitespace _ c hc
    · exact natReprChars_not_whitespace _ c hc
  unfold pyIntChars
  rw [pyStrip_of_no_whitespace _ hws]
  by_cases ht : t < 0
  · have habs : intReprChars t = '-' :: natReprChars t.natAbs := by
      simp [intReprChars, ht]
    rw [habs]
    simp only [List.head?_cons, List.tail_cons]
    rw [if_pos trivial, decDigits?_natReprChars]
    simp only [Option.pure_def, Option.bind_eq_bind, Option.some_bind,
      Option.map_some, Option.some_inj]
    rw [Int.natCast_natAbs, abs_of_neg ht]
    simp
  · have habs : intReprChars t = natReprChars t.natAbs := by
      simp [intReprChars, ht]
    rw [habs]
    have hm : ∀ s : Char, (natReprChars t.natAbs).head? = some s → s ≠ '-' ∧ s ≠ '+' := by
      intro s hs
      have := natReprChars_head_digit t.natAbs s hs
      constructor <;> (intro he; rw [he] at this; revert this; decide)
    rcases hh : (natReprChars t.natAbs).head? with _ | s
    · exact absurd (List.head?_eq_none_iff.1 hh) (natReprChars_ne_nil _)
    · rw [if_neg (by rw [hh]; simpa using (hm s hh).1),
        if_neg (by rw [hh]; simpa using (hm s hh).2),
        decDigits?_natReprChars]
      simp only [Option.pure_def, Option.bind_eq_bind, Option.some_bind,
        Option.map_some, Option.some_inj]
      rw [Int.natCast_natAbs, abs_of_nonneg (not_lt.1 ht)]
      simp

/-! ### Filenames and the partition directory -/

/-- `filename.split(".")[0]`: the prefix of the name before the first dot
(the whole name when there is no dot). -/
def firstDotField (fn : List Char) : List Char :=
  fn.takeWhile (fun c => decide (c ≠ '.'))

/-- `int(filename.split(".")[0])`, `none` modelling the `ValueError` that
both directory scanners silently ignore. -/
def parseTs (fn : List Char) : Option Int := pyIntChars (firstDotField fn)

/-- `"{}.pkl".format(i)` for an integer `i`. -/
def pklName (t : Int) : List Char := intReprChars t ++ ['.', 'p', 'k', 'l']

/-- `"{}.pkl".format(last_timestamp)`, computed at line 103 of
`__main__.py` before the freshness branch; Python renders `None` as the
string `"None"` when no timestamp was found. -/
def lastFileName (lastTs : Option Int) : List Char :=
  match lastTs with
  | none => ['N', 'o', 'n', 'e', '.', 'p', 'k', 'l']
  | some t => pklName t

/-- One partition directory: an association list from filename to file
content.  `some payload` is a pickled list as written by `cPickle.dump`;
`none` stands for a file whose bytes `cPickle.load` cannot parse. -/
abbrev Dir (Rec : Type) : Type := List (List Char × Option (List Rec))

/-- The `os.listdir` view of a directory. -/
def dirNames {Rec : Type} (d : Dir Rec) : List (List Char) := d.map Prod.fst

/-- Opening and reading a file: `none` when no such name exists
(`IOError`), otherwise the content. -/
def lookupFile {Rec : Type} (d : Dir Rec) (fn : List Char) :
    Option (Option (List Rec)) :=
  (d.find? (fun e => decide (e.1 = fn))).map Prod.snd

/-- `open(file_path, "wb")` followed by `cPickle.dump`: truncate an
existing file of that name or create a new one. -/
def writeFile {Rec : Type} (d : Dir Rec) (fn : List Char) (content : List Rec) :
    Dir Rec :=
  if d.any (fun e => decide (e.1 = fn)) then
    d.map (fun e => if e.1 = fn then (fn, some content) else e)
  else d ++ [(fn, some content)]

/-- Loop body of `utils.get_last_file_timestamp` (utils.py lines 70–78):
skip a name `int()` rejects, otherwise keep the larger of the running
maximum and the parsed timestamp. -/
def glftStep (last : Option Int) (fn : List Char) : Option Int :=
  match parseTs fn with
  | none => last
  | some ts =>
    match last with
    | none => some ts
    | some l => if ts > l then some ts else some l

/-- `utils.get_last_file_timestamp` (utils.py lines 60–80): fold over the
directory listing keeping the largest integer parsed from a filename,
silently skipping names `int()` rejects; `None` when nothing parsed. -/
def get_last_file_timestamp (names : List (List Char)) : Option Int :=
  names.foldl glftStep none

/-! ### The fetch-and-cache orchestrator (`track_results`) -/

/-- Observable I/O actions of the cache layer.  `rename` is never emitted
by the embedded code; the constructor exists so the atomic-publish property
of the specification can be stated about traces. -/
inductive StoreOp where
  | fetch : StoreOp
  | existsCheck : List Char → StoreOp
  | openWrite : List Char → StoreOp
  | dump : List Char → StoreOp
  | openRead : List Char → StoreOp
  | load : List Char → StoreOp
  | rename : List Char → List Char → StoreOp
  | removeFile : List Char → StoreOp
deriving DecidableEq, Repr

/-- Line 108 of `__main__.py`:
`self.force_grab or last_timestamp is None or
 (epoch_secs - last_timestamp) > freshness`. -/
def decideRefresh (force : Bool) (lastTs : Option Int) (now budget : Int) : Bool :=
  force ||
    (match lastTs with
     | none => true
     | some t => decide (now - t > budget))

/-- `results` after the try/except at lines 110–114: the fetched list on
success, `[]` when the remote call raised. -/
def pyResults {Rec : Type} (fetch : Except PyErr (List Rec)) : List Rec :=
  match fetch with
  | .ok r => r
  | .error _ => []

deriving instance DecidableEq for Except

/-- Outcome of one `track_results`-wrapped call: the value returned (or the
exception propagated), the partition directory afterwards, and the I/O
trace. -/
structure RunResult (Rec : Type) where
  res : Except PyErr (List Rec)
  dir : Dir Rec
  trace : List StoreOp
deriving DecidableEq

/-- The body of the `wrapper` closure produced by `track_results`
(`__main__.py` lines 99–132) acting on one partition directory.  The remote
call `method(self, *args, **kwargs)` is passed by its outcome `fetch`
(`.error e` = the call raised `e`). -/
def track_results {Rec : Type} (freshness : Int) (force : Bool) (now : Int)
    (fetch : Except PyErr (List Rec)) (d : Dir Rec) : RunResult Rec :=
  let lastTs := get_last_file_timestamp (dirNames d)
  let lastFile := lastFileName lastTs
  if decideRefresh force lastTs now freshness then
    let results := pyResults fetch
    if results.isEmpty then
      ⟨.ok results, d, [.fetch]⟩
    else
      let fn := pklName now
      ⟨.ok results, writeFile d fn results,
        [.fetch, .existsCheck fn, .openWrite fn, .dump fn]⟩
  else
    match lookupFile d lastFile with
    | none => ⟨.error .ioErr, d, [.openRead lastFile]⟩
    | some none => ⟨.error .unpicklingErr, d, [.openRead lastFile, .load lastFile]⟩
    | some (some content) => ⟨.ok content, d, [.openRead lastFile, .load lastFile]⟩

/-! #### Filename facts -/

theorem takeWhile_append_dot (A rest : List Char) (h : ∀ c ∈ A, c ≠ '.') :
    (A ++ '.' :: rest).takeWhile (fun c => decide (c ≠ '.')) = A := by
  induction A with
  | nil => simp [List.takeWhile_cons]
  | cons a A ih =>
    rw [List.cons_append, List.takeWhile_cons, decide_eq_true (h a (by simp))]
    rw [ih (fun c hc => h c (by simp [hc]))]
    simp

theorem intReprChars_no_dot (t : Int) : ∀ c ∈ intReprChars t, c ≠ '.' := by
  intro c hc he
  subst he
  unfold intReprChars at hc
  have hdig : ∀ c ∈ natReprChars t.natAbs, c.isDigit = true := by
    have := natReprChars_digits t.natAbs
    rwa [List.all_eq_true] at this
  split at hc
  · rcases List.mem_cons.1 hc with hc | hc
    · exact absurd hc.symm (by decide)
    · exact absurd (hdig _ hc) (by decide)
  · exact absurd (hdig _ hc) (by decide)

theorem parseTs_pklName (t : Int) : parseTs (pklName t) = some t := by
  unfold parseTs pklName firstDotField
  rw [show (['.', 'p', 'k', 'l'] : List Char) = '.' :: ['p', 'k', 'l'] from rfl,
    takeWhile_append_dot _ _ (intReprChars_no_dot t)]
  exact pyIntChars_intReprChars t

/-! ### Domain records and the region poller -/

/-- `EC2Instance = namedtuple("EC2Instance", ("id", "state", "type"))`. -/
structure EC2Instance where
  id : String
  state : String
  type : String
deriving DecidableEq, Repr

/-- `EBSVolume = namedtuple("EBSVolume",
("id", "status", "size", "type", "instance_id"))`.  The size in GB is kept
as an integer; no claim computes with it. -/
structure EBSVolume where
  id : String
  status : String
  size : Int
  type : String
  instance_id : String
deriving DecidableEq, Repr

/-- `volume.attach_data` of a boto volume; `none` models a falsy
`attach_data`. -/
structure RawAttachData where
  instance_id : String
deriving DecidableEq, Repr

/-- A provider-native volume as returned by
`connection.get_all_volumes()`. -/
structure RawVolume where
  id : String
  status : String
  size : Int
  type : String
  attach_data : Option RawAttachData
deriving DecidableEq, Repr

/-- A provider-native instance from `connection.get_only_instances()`. -/
structure RawInstance where
  id : String
  state : String
  instance_type : String
deriving DecidableEq, Repr

/-- `volume.attach_data and volume.attach_data.instance_id` (line 255):
truthy exactly when attachment data is present with a non-empty
instance id. -/
def rawAttached (v : RawVolume) : Bool :=
  match v.attach_data with
  | none => false
  | some ad => decide (ad.instance_id ≠ "")

/-- The loop of `AWSRegionPoller.get_volumes` (lines 251–264).  Python
state: `new_volume` is assigned only inside the two guarded branches, so on
the unattached/flag-unset path `all_volumes.append(new_volume)` appends the
*previous* iteration's record (`NameError` on the first iteration); and
`self.include_rogue_volumes` is an instance attribute that
`AWSRegionPoller.__init__` never sets, so `includeRogue = none` (the state
of every poller the program builds) makes the attribute access raise
`AttributeError`. -/
def getVolumesLoop (includeRogue : Option Bool) :
    List RawVolume → Option EBSVolume → List EBSVolume →
    Except PyErr (List EBSVolume)
  | [], _, acc => .ok acc.reverse
  | v :: rest, newVol, acc =>
    if rawAttached v then
      let nv : EBSVolume :=
        ⟨v.id, v.status, v.size, v.type,
          (v.attach_data.map RawAttachData.instance_id).getD ""⟩
      getVolumesLoop includeRogue rest (some nv) (nv :: acc)
    else
      match includeRogue with
      | none => .error .attributeErr
      | some true =>
        let nv : EBSVolume := ⟨v.id, v.status, v.size, v.type, ""⟩
        getVolumesLoop includeRogue rest (some nv) (nv :: acc)
      | some false =>
        match newVol with
        | none => .error .nameErr
        | some nv => getVolumesLoop includeRogue rest (some nv) (nv :: acc)

/-- Body of `AWSRegionPoller.get_volumes` before the decorator is
applied. -/
def getVolumesBody (includeRogue : Option Bool) (raws : List RawVolume) :
    Except PyErr (List EBSVolume) :=
  getVolumesLoop includeRogue raws none []

/-- Body of `AWSRegionPoller.get_instances` (lines 273–281). -/
def getInstancesBody (raws : List RawInstance) : List EC2Instance :=
  raws.map (fun i => ⟨i.id, i.state, i.instance_type⟩)

/-! ### Module-level layout constants (`pollers/utils.py`) -/

/-- `os.path.join(a, b)` for a non-empty head and a relative tail (the only
shapes the program builds). -/
def pathJoin (a b : String) : String := a ++ "/" ++ b

/-- `DEFAULT_ROOT_RESULTS_DIR = "results"` (utils.py line 27). -/
def DEFAULT_ROOT_RESULTS_DIR : String := "results"

/-- Top-level names the module `pollers/utils.py` defines: its imports and
the definitions at lines 27–148.  `BASE_RESULTS_DIR`, which
`AWSRegionPoller.__init__` dereferences at line 236, is not among them. -/
def utilsModuleNames : List String :=
  ["argparse", "datetime", "os",
   "DEFAULT_ROOT_RESULTS_DIR", "setup_dir", "setup_env",
   "get_last_file_timestamp", "cleanup_old_data", "main"]

/-- Reading a string-valued attribute of the `utils` module.
`DEFAULT_ROOT_RESULTS_DIR` is the only string constant the module defines;
looking up any name outside `utilsModuleNames` — in particular
`BASE_RESULTS_DIR` — raises `AttributeError`. -/
def utilsGetattrString (name : String) : Except PyErr String :=
  if name = "DEFAULT_ROOT_RESULTS_DIR" then .ok DEFAULT_ROOT_RESULTS_DIR
  else .error .attributeErr

/-- Directories ensured by `utils.setup_env(ident)` (utils.py 45–57): the
default root and `root/ident`, both under `DEFAULT_ROOT_RESULTS_DIR`. -/
def setup_env_dirs (ident : String) : List String :=
  [DEFAULT_ROOT_RESULTS_DIR, pathJoin DEFAULT_ROOT_RESULTS_DIR ident]

/-- `AWSRegionPoller.__init__` (lines 217–242) computing
`os.path.join(utils.BASE_RESULTS_DIR, ident, region_name)`: the attribute
lookup on the `utils` module happens first and determines the outcome. -/
def awsRegionPollerResultsDir (ident region : String) : Except PyErr String := do
  let base ← utilsGetattrString "BASE_RESULTS_DIR"
  return pathJoin (pathJoin base ident) region

/-- `AWSRegionPollerFactory.INSTANCE_DATA_DIR`. -/
def INSTANCE_DATA_DIR : String := "instances"

/-- `AWSRegionPollerFactory.VOLUME_DATA_DIR`. -/
def VOLUME_DATA_DIR : String := "volumes"

/-- Modelled from the spec: the on-disk location §6 prescribes for one
snapshot, `root/{identity}/{region}/{data-source-name}/{epoch-seconds}.pkl`
with the same root for writing and namespace setup.  Stated for comparison
with the path the code actually builds. -/
def specSnapshotPath (root ident region dsName : String) (epoch : Int) : String :=
  pathJoin (pathJoin (pathJoin (pathJoin root ident) region) dsName)
    (String.mk (pklName epoch))

/-! ### Report builder (`output_to_table`, `main`) -/

/-- `instance_dict = {inst.id: inst for inst in ec2_instances}` followed by
`instance_dict.get(volume.instance_id)`: a Python dict comprehension keeps
the last binding of a duplicated key. -/
def instanceLookup (insts : List EC2Instance) (key : String) :
    Option EC2Instance :=
  insts.reverse.find? (fun i => decide (i.id = key))

/-- `MISSING_TEXT = "NOT FOUND"`. -/
def MISSING_TEXT : String := "NOT FOUND"

/-- One row of the output table.  The numeric size is carried as stored;
the `"%.1fGB"` string formatting is presentation only. -/
structure Row where
  instanceId : String
  instanceType : String
  instanceState : String
  volumeId : String
  volumeStatus : String
  volumeSizeGB : Int
deriving DecidableEq, Repr

/-- `output_to_table` (lines 43–83): one row per volume, joined to its
instance by `instance_id`, missing references rendered as
`MISSING_TEXT`. -/
def output_to_table (vols : List EBSVolume) (insts : List EC2Instance) :
    List Row :=
  vols.map (fun v =>
    match instanceLookup insts v.instance_id with
    | some i => ⟨i.id, i.type, i.state, v.id, v.status, v.size⟩
    | none => ⟨MISSING_TEXT, MISSING_TEXT, MISSING_TEXT, v.id, v.status, v.size⟩)

/-- Lines 345–349 of `main`: `if ebs_volumes:` — the table exists only when
the aggregated volume list is non-empty; otherwise only a log line is
emitted. -/
def mainRenderTable (vols : List EBSVolume) (insts : List EC2Instance) :
    Option (List Row) :=
  if vols.isEmpty then none else some (output_to_table vols insts)

/-! ### Maintenance cleanup (`utils.cleanup_old_data`) -/

/-- The per-partition loop of `cleanup_old_data` (utils.py 103–122): walk
the listing, remember the file with the largest parsed timestamp seen so
far, and collect every other parsable file for deletion. -/
def cleanupGo : List (List Char) → Option (Int × List Char) →
    List (List Char) → List (List Char)
  | [], _, dels => dels
  | fn :: rest, last, dels =>
    match parseTs fn with
    | none => cleanupGo rest last dels
    | some ts =>
      match last with
      | none => cleanupGo rest (some (ts, fn)) dels
      | some (l, lf) =>
        if ts > l then cleanupGo rest (some (ts, fn)) (dels ++ [lf])
        else cleanupGo rest last (dels ++ [fn])

/-- The names `cleanup_old_data` deletes from one partition listing. -/
def cleanupPartition (names : List (List Char)) : List (List Char) :=
  cleanupGo names none []

/-- `utils.main` (utils.py 131–145): deletions happen if and only if the
standalone tool is invoked with the `-c` (cleanup) flag. -/
def utilsMainDeletions (cleanupFlag : Bool)
    (partitions : List (List (List Char))) : List (List (List Char)) :=
  if cleanupFlag then partitions.map cleanupPartition
  else partitions.map (fun _ => ([] : List (List Char)))

/-- `op` is an `open(..., "wb")` of some path. -/
def StoreOp.isOpenWrite : StoreOp → Bool
  | .openWrite _ => true
  | _ => false

/-- `op` is a rename. -/
def StoreOp.isRename : StoreOp → Bool
  | .rename _ _ => true
  | _ => false

/-- `op` is an `os.remove`. -/
def StoreOp.isRemove : StoreOp → Bool
  | .removeFile _ => true
  | _ => false

/-! ### `get_last_file_timestamp` returns the maximum parsed instant -/

theorem foldl_glftStep_some (names : List (List Char)) :
    ∀ a : Int, names.foldl glftStep (some a) =
      some ((names.filterMap parseTs).foldl max a) := by
  induction names with
  | nil => intro a; rfl
  | cons fn rest ih =>
    intro a
    cases h : parseTs fn with
    | none =>
      rw [List.foldl_cons]
      have hstep : glftStep (some a) fn = some a := by simp [glftStep, h]
      rw [hstep, ih a]
      simp [List.filterMap_cons, h]
    | some ts =>
      have hstep : glftStep (some a) fn = some (max a ts) := by
        simp only [glftStep, h]
        rcases le_or_lt ts a with hle | hlt
        · rw [if_neg (by simpa using not_lt.2 hle), max_eq_left hle]
        · rw [if_pos (by simpa using hlt), max_eq_right hlt.le]
      rw [List.foldl_cons, hstep, ih (max a ts)]
      simp [List.filterMap_cons, h]

theorem get_last_file_timestamp_eq_max (names : List (List Char)) :
    get_last_file_timestamp names = (names.filterMap parseTs).max? := by
  induction names with
  | nil => rfl
  | cons fn rest ih =>
    unfold get_last_file_timestamp at *
    rw [List.foldl_cons]
    cases h : parseTs fn with
    | none =>
      have hstep : glftStep none fn = none := by simp [glftStep, h]
      rw [hstep, ih]
      simp [List.filterMap_cons, h]
    | some ts =>
      have hstep : glftStep none fn = some ts := by simp [glftStep, h]
      rw [hstep, foldl_glftStep_some]
      simp [List.filterMap_cons, h, List.max?]

/-- C8: `get_last_file_timestamp` returns the maximum of the integer
instants parsed from the directory entries, is absent when no entry
parses, silently skips non-numeric names, and on instants {5, 9, 3}
returns 9. -/
theorem C8_latest_instant_is_max :
    (∀ names : List (List Char),
      get_last_file_timestamp names = (names.filterMap parseTs).max?) ∧
    get_last_file_timestamp
      [['5', '.', 'p', 'k', 'l'], ['9', '.', 'p', 'k', 'l'],
       ['3', '.', 'p', 'k', 'l']] = some 9 ∧
    get_last_file_timestamp ([] : List (List Char)) = none ∧
    get_last_file_timestamp
      [['j', 'u', 'n', 'k'], ['5', '.', 'p', 'k', 'l']] = some 5 :=
  ⟨get_last_file_timestamp_eq_max, by decide, rfl, by decide⟩

/-! ### The freshness decision (C1) -/

/-- C1: `decide` is REFRESH exactly when the force flag is set, or no prior
snapshot exists, or the elapsed time exceeds the budget; in every other
case — including a negative elapsed time — it is REUSE. -/
theorem C1_freshness_decision (force : Bool) (latest : Option Int)
    (now budget : Int) :
    (decideRefresh force latest now budget = true ↔
      (force = true ∨ latest = none ∨
        ∃ t, latest = some t ∧ now - t > budget)) ∧
    (∀ t, latest = some t → force = false → now - t ≤ budget →
      decideRefresh force latest now budget = false) := by
  constructor
  · cases latest with
    | none => cases force <;> simp [decideRefresh]
    | some t => cases force <;> simp [decideRefresh]
  · intro t hl hf hle
    subst hl
    subst hf
    simp only [decideRefresh, Bool.false_or]
    exact decide_eq_false (not_lt.2 hle)

/-- Witness for C1 at a concrete input with negative elapsed time:
latest = 10, now = 5, budget = 3 gives REUSE. -/
theorem C1_freshness_decision_witness :
    decideRefresh false (some 10) 5 3 = false :=
  (C1_freshness_decision false (some 10) 5 3).2 10 rfl rfl (by decide)

/-! ### Orchestrator error handling (C2) and empty results (C3) -/

/-- C2: when the fetch path is taken and the remote fetch raises, the
wrapper returns the empty list, leaves the partition directory (hence its
latest instant) unchanged, opens no file for writing, and propagates no
error. -/
theorem C2_fetch_error_degrades {Rec : Type} (e : PyErr) (d : Dir Rec)
    (force : Bool) (now budget : Int)
    (h : decideRefresh force (get_last_file_timestamp (dirNames d)) now budget
      = true) :
    (track_results budget force now (Except.error e) d).res = .ok [] ∧
    (track_results budget force now (Except.error e) d).dir = d ∧
    get_last_file_timestamp
        (dirNames (track_results budget force now (Except.error e) d).dir) =
      get_last_file_timestamp (dirNames d) ∧
    ((track_results budget force now (Except.error e) d).trace.any
      StoreOp.isOpenWrite) = false := by
  simp [track_results, h, pyResults, StoreOp.isOpenWrite]

/-- Witness for C2 on the empty partition. -/
theorem C2_fetch_error_degrades_witness :
    decideRefresh false
        (get_last_file_timestamp (dirNames ([] : Dir EBSVolume))) 0 5 = true ∧
    (track_results 5 false 0 (Except.error PyErr.ioErr)
      ([] : Dir EBSVolume)).res = .ok [] :=
  ⟨by decide,
    (C2_fetch_error_degrades PyErr.ioErr ([] : Dir EBSVolume) false 0 5
      (by decide)).1⟩

/-- C3: a successful empty fetch on the fetch path returns the empty
result and leaves the directory unchanged; and across all inputs a file is
opened for writing exactly when the fetch path was taken and the fetched
result is non-empty. -/
theorem C3_empty_fetch_writes_iff {Rec : Type} (d : Dir Rec) (force : Bool)
    (now budget : Int) :
    (decideRefresh force (get_last_file_timestamp (dirNames d)) now budget
        = true →
      (track_results budget force now (Except.ok ([] : List Rec)) d).res
          = .ok [] ∧
      (track_results budget force now (Except.ok ([] : List Rec)) d).dir = d) ∧
    (∀ fetch : Except PyErr (List Rec),
      ((track_results budget force now fetch d).trace.any StoreOp.isOpenWrite)
        = (decideRefresh force (get_last_file_timestamp (dirNames d)) now
            budget && !(pyResults fetch).isEmpty)) := by
  constructor
  · intro h
    simp [track_results, h, pyResults]
  · intro fetch
    by_cases h : decideRefresh force (get_last_file_timestamp (dirNames d))
        now budget = true
    · by_cases hr : (pyResults fetch).isEmpty
      · simp [track_results, h, hr, StoreOp.isOpenWrite]
      · simp only [Bool.not_eq_true] at hr
        simp [track_results, h, hr, StoreOp.isOpenWrite]
    · rw [Bool.not_eq_true] at h
      rcases hl : lookupFile d (lastFileName
          (get_last_file_timestamp (dirNames d))) with _ | c
      · simp [track_results, h, hl, StoreOp.isOpenWrite]
      · cases c <;> simp [track_results, h, hl, StoreOp.isOpenWrite]

/-- Witness for C3: fetch path taken on the empty partition, empty result,
no write. -/
theorem C3_empty_fetch_writes_iff_witness :
    decideRefresh false
        (get_last_file_timestamp (dirNames ([] : Dir EBSVolume))) 0 5 = true ∧
    (track_results 5 false 0 (Except.ok ([] : List EBSVolume))
        ([] : Dir EBSVolume)).res = .ok [] ∧
    (track_results 5 false 0 (Except.ok ([] : List EBSVolume))
        ([] : Dir EBSVolume)).dir = [] :=
  ⟨by decide,
    ((C3_empty_fetch_writes_iff ([] : Dir EBSVolume) false 0 5).1
      (by decide)).1,
    ((C3_empty_fetch_writes_iff ([] : Dir EBSVolume) false 0 5).1
      (by decide)).2⟩

/-! ### Snapshot write mechanics (C4) -/

/-- Modelled from the spec (§4.2 `write`): the write "must write to a
temporary location and atomically publish, or equivalent" — no write opens
the final path directly, and a rename from a different name publishes onto
the final path. -/
def usesAtomicPublish (ops : List StoreOp) (finalName : List Char) : Bool :=
  ops.all (fun op => decide (op ≠ StoreOp.openWrite finalName)) &&
  ops.any (fun op =>
    match op with
    | StoreOp.rename src dst => decide (dst = finalName) && decide (src ≠ finalName)
    | _ => false)

/-- A sample volume record used in concrete runs. -/
def sampleVolume : EBSVolume := ⟨"vol-1", "in-use", 8, "gp2", "i-1"⟩

/-- C4 counterexample: a concrete snapshot write (fresh fetch of one volume
at instant 100 into an empty partition) opens the final `100.pkl` path
directly and performs no rename, so the write is not an atomic publish. -/
theorem C4_write_not_atomic_counterexample :
    usesAtomicPublish
      (track_results 5 false 100 (Except.ok [sampleVolume])
        ([] : Dir EBSVolume)).trace
      (pklName 100) = false := by decide

/-- C4 amended: every `track_results` run performs no rename at all, and
whenever the write branch is reached (fetch path taken, non-empty result)
it opens the final `{epoch}.pkl` path directly — after an existence check
that merely warns — so a concurrent reader can observe a partially written
file. -/
theorem C4_write_direct_to_final {Rec : Type} (d : Dir Rec) (force : Bool)
    (now budget : Int) (fetch : Except PyErr (List Rec)) :
    ((track_results budget force now fetch d).trace.any StoreOp.isRename)
        = false ∧
    (decideRefresh force (get_last_file_timestamp (dirNames d)) now budget
        = true →
      (pyResults fetch).isEmpty = false →
      StoreOp.openWrite (pklName now) ∈
        (track_results budget force now fetch d).trace) := by
  constructor
  · by_cases h : decideRefresh force (get_last_file_timestamp (dirNames d))
        now budget = true
    · by_cases hr : (pyResults fetch).isEmpty
      · simp [track_results, h, hr, StoreOp.isRename]
      · simp only [Bool.not_eq_true] at hr
        simp [track_results, h, hr, StoreOp.isRename]
    · rw [Bool.not_eq_true] at h
      rcases hl : lookupFile d (lastFileName
          (get_last_file_timestamp (dirNames d))) with _ | c
      · simp [track_results, h, hl, StoreOp.isRename]
      · cases c <;> simp [track_results, h, hl, StoreOp.isRename]
  · intro h hr
    simp [track_results, h, hr]

/-- Witness for the amended C4 on a concrete write. -/
theorem C4_write_direct_to_final_witness :
    decideRefresh false
        (get_last_file_timestamp (dirNames ([] : Dir EBSVolume))) 100 5
        = true ∧
    (pyResults (Except.ok [sampleVolume])).isEmpty = false ∧
    StoreOp.openWrite (pklName 100) ∈
      (track_results 5 false 100 (Except.ok [sampleVolume])
        ([] : Dir EBSVolume)).trace :=
  ⟨by decide, by decide,
    (C4_write_direct_to_final ([] : Dir EBSVolume) false 100 5
      (Except.ok [sampleVolume])).2 (by decide) (by decide)⟩

/-! ### Rogue-volume handling (C5) -/

/-- A fetched volume with no attached instance. -/
def rogueRawVolume : RawVolume := ⟨"vol-1", "available", 8, "gp2", none⟩

/-- A fetched volume attached to instance `i-1`. -/
def attachedRawVolume : RawVolume := ⟨"vol-2", "in-use", 8, "gp2", some ⟨"i-1"⟩⟩

/-- C5 fails on the code: `AWSRegionPoller.__init__` never sets
`include_rogue_volumes` (the factory keeps the flag to itself), so on the
first unattached volume the body raises `AttributeError` and the decorator
turns the whole result into `[]` — the rogue volume is never included and
attached volumes fetched alongside are dropped too.  Even with the
attribute present and unset, the stale `new_volume` of the previous
iteration is appended again in place of the skipped rogue volume, and a
leading rogue volume raises `NameError`.  Attached-only listings do work as
claimed. -/
theorem C5_rogue_volume_attribute_bug :
    getVolumesBody none [rogueRawVolume] = .error PyErr.attributeErr ∧
    (track_results 86400 false 1000 (getVolumesBody none [rogueRawVolume])
        ([] : Dir EBSVolume)).res = .ok [] ∧
    getVolumesBody none [attachedRawVolume] =
      .ok [⟨"vol-2", "in-use", 8, "gp2", "i-1"⟩] ∧
    getVolumesBody (some false) [attachedRawVolume, rogueRawVolume] =
      .ok [⟨"vol-2", "in-use", 8, "gp2", "i-1"⟩,
           ⟨"vol-2", "in-use", 8, "gp2", "i-1"⟩] ∧
    getVolumesBody (some false) [rogueRawVolume] = .error PyErr.nameErr ∧
    getVolumesBody (some true) [rogueRawVolume] =
      .ok [⟨"vol-1", "available", 8, "gp2", ""⟩] := by decide

/-! ### On-disk layout root (C6) -/

/-- C6 fails on the code: the write path dereferences
`utils.BASE_RESULTS_DIR`, a name `pollers/utils.py` never defines, so
constructing any `AWSRegionPoller` raises `AttributeError`; the
namespace-setup path (`setup_env`) meanwhile uses
`DEFAULT_ROOT_RESULTS_DIR = "results"`.  The two paths therefore do not
share a root — the write path has none at all. -/
theorem C6_results_root_attribute_bug :
    utilsGetattrString "BASE_RESULTS_DIR" = .error PyErr.attributeErr ∧
    awsRegionPollerResultsDir "022QF06E7MXBSH9DHM02" "us-east-1" =
      .error PyErr.attributeErr ∧
    "BASE_RESULTS_DIR" ∉ utilsModuleNames ∧
    setup_env_dirs "022QF06E7MXBSH9DHM02" =
      ["results", "results/022QF06E7MXBSH9DHM02"] :=
  ⟨rfl, rfl, by decide, rfl⟩

/-! ### Report rendering gate (C10) -/

/-- C10: the table exists if and only if the aggregated volume collection
is non-empty; with no volumes nothing is rendered regardless of the
instance collection. -/
theorem C10_no_table_without_volumes (vols : List EBSVolume)
    (insts : List EC2Instance) :
    (mainRenderTable vols insts).isSome = !vols.isEmpty ∧
    mainRenderTable [] insts = none := by
  constructor
  · by_cases h : vols.isEmpty <;> simp [mainRenderTable, h]
  · rfl

/-! ### Idempotence of back-to-back invocations (C7) -/

theorem le_foldl_max (as : List Int) :
    ∀ (a x : Int), x = a ∨ x ∈ as → x ≤ as.foldl max a := by
  induction as with
  | nil =>
    rintro a x (rfl | h)
    · exact le_refl x
    · cases h
  | cons b as ih =>
    rintro a x (rfl | h)
    · exact le_trans (le_max_left x b) (ih (max x b) (max x b) (Or.inl rfl))
    · rcases List.mem_cons.1 h with rfl | h'
      · exact le_trans (le_max_right a x) (ih (max a x) (max a x) (Or.inl rfl))
      · exact ih (max a b) x (Or.inr h')

theorem max?_le_of_mem (L : List Int) (l : Int) (h : L.max? = some l) :
    ∀ x ∈ L, x ≤ l := by
  cases L with
  | nil => cases h
  | cons a as =>
    simp only [List.max?] at h
    intro x hx
    rw [← Option.some_inj.1 h]
    exact le_foldl_max as a x (by simpa using List.mem_cons.1 hx)

theorem foldl_max_le (t : Int) :
    ∀ (L : List Int) (a : Int), a ≤ t → (∀ x ∈ L, x ≤ t) →
      L.foldl max a ≤ t := by
  intro L
  induction L with
  | nil => intro a h _; simpa using h
  | cons x L ih =>
    intro a ha hall
    rw [List.foldl_cons]
    exact ih (max a x) (max_le ha (hall x (by simp)))
      (fun y hy => hall y (by simp [hy]))

theorem max?_append_singleton_of_le (L : List Int) (t : Int)
    (h : ∀ x ∈ L, x ≤ t) : (L ++ [t]).max? = some t := by
  cases L with
  | nil => rfl
  | cons a L =>
    simp only [List.cons_append, List.max?, List.foldl_append,
      List.foldl_cons, List.foldl_nil, Option.some_inj]
    exact max_eq_right (foldl_max_le t L a (h a (by simp))
      (fun x hx => h x (by simp [hx])))

theorem writeFile_of_not_mem {Rec : Type} (d : Dir Rec) (fn : List Char)
    (c : List Rec) (h : fn ∉ dirNames d) :
    writeFile d fn c = d ++ [(fn, some c)] := by
  unfold writeFile
  rw [if_neg]
  intro hc
  rw [List.any_eq_true] at hc
  obtain ⟨e, he, hefn⟩ := hc
  rw [decide_eq_true_eq] at hefn
  exact h (List.mem_map.2 ⟨e, he, hefn⟩)

theorem lookupFile_append_self {Rec : Type} (d : Dir Rec) (fn : List Char)
    (c : Option (List Rec)) (h : fn ∉ dirNames d) :
    lookupFile (d ++ [(fn, c)]) fn = some c := by
  induction d with
  | nil => simp [lookupFile, List.find?]
  | cons e rest ih =>
    have he : e.1 ≠ fn := fun hh => h (List.mem_map.2 ⟨e, by simp, hh⟩)
    have h' : fn ∉ dirNames rest := fun hh => h (by
      rcases List.mem_map.1 hh with ⟨e', he', rfl⟩
      exact List.mem_map.2 ⟨e', by simp [he'], rfl⟩)
    rw [List.cons_append]
    unfold lookupFile at *
    rw [List.find?_cons_of_neg _ (by simpa using he)]
    exact ih h'

/-- C7: starting from a partition on which the first call takes the fetch
path, a successful non-empty fetch followed by an immediate second call
(elapsed within the non-negative budget) performs exactly one remote
fetch: the second call takes the REUSE branch, changes nothing, and
returns the payload the first call persisted. -/
theorem C7_second_call_reuses {Rec : Type} (d : Dir Rec) (budget t0 t1 : Int)
    (r : List Rec) (f2 : Except PyErr (List Rec))
    (hb : 0 ≤ budget)
    (h1 : decideRefresh false (get_last_file_timestamp (dirNames d)) t0 budget
      = true)
    (hr : r ≠ [])
    (h2 : t1 - t0 ≤ budget) :
    (track_results budget false t0 (Except.ok r) d).res = .ok r ∧
    (track_results budget false t1 f2
        (track_results budget false t0 (Except.ok r) d).dir).res = .ok r ∧
    (track_results budget false t1 f2
        (track_results budget false t0 (Except.ok r) d).dir).dir =
      (track_results budget false t0 (Except.ok r) d).dir ∧
    ((track_results budget false t0 (Except.ok r) d).trace ++
        (track_results budget false t1 f2
          (track_results budget false t0 (Except.ok r) d).dir).trace).count
      StoreOp.fetch = 1 := by
  have hre : (pyResults (Except.ok r)).isEmpty = false := by
    cases r with
    | nil => exact absurd rfl hr
    | cons a l => rfl
  -- every instant already recorded in the partition is strictly below t0
  have hbound : ∀ x ∈ (dirNames d).filterMap parseTs, x < t0 := by
    intro x hx
    rcases hglft : get_last_file_timestamp (dirNames d) with _ | l
    · rw [get_last_file_timestamp_eq_max] at hglft
      rw [List.max?_eq_none_iff.1 hglft] at hx
      cases hx
    · have hle : x ≤ l := by
        rw [get_last_file_timestamp_eq_max] at hglft
        exact max?_le_of_mem _ l hglft x hx
      rw [hglft] at h1
      simp only [decideRefresh, Bool.false_or, decide_eq_true_eq] at h1
      omega
  have hnotmem : pklName t0 ∉ dirNames d := by
    intro hmem
    have ht0 : t0 ∈ (dirNames d).filterMap parseTs :=
      List.mem_filterMap.2 ⟨_, hmem, parseTs_pklName t0⟩
    exact absurd (hbound t0 ht0) (lt_irrefl t0)
  have hwf : writeFile d (pklName t0) r = d ++ [(pklName t0, some r)] :=
    writeFile_of_not_mem d _ r hnotmem
  have ho1 : track_results budget false t0 (Except.ok r) d =
      ⟨.ok r, d ++ [(pklName t0, some r)],
        [.fetch, .existsCheck (pklName t0), .openWrite (pklName t0),
          .dump (pklName t0)]⟩ := by
    simp [track_results, h1, hre, pyResults, hwf, hr]
  have hglft1 : get_last_file_timestamp
      (dirNames (d ++ [(pklName t0, some r)])) = some t0 := by
    have hnames : dirNames (d ++ [(pklName t0, some r)]) =
        dirNames d ++ [pklName t0] := by
      simp [dirNames]
    rw [hnames, get_last_file_timestamp_eq_max, List.filterMap_append]
    simp only [List.filterMap_cons, parseTs_pklName, List.filterMap_nil]
    exact max?_append_singleton_of_le _ t0
      (fun x hx => le_of_lt (hbound x hx))
  have hdec2 : decideRefresh false (some t0) t1 budget = false := by
    simp only [decideRefresh, Bool.false_or]
    exact decide_eq_false (by omega)
  have hlook : lookupFile (d ++ [(pklName t0, some r)]) (pklName t0) =
      some (some r) :=
    lookupFile_append_self d _ (some r) hnotmem
  have ho2 : track_results budget false t1 f2 (d ++ [(pklName t0, some r)]) =
      ⟨.ok r, d ++ [(pklName t0, some r)],
        [.openRead (pklName t0), .load (pklName t0)]⟩ := by
    simp [track_results, hglft1, hdec2, lastFileName, hlook]
  rw [ho1]
  rw [show (⟨.ok r, d ++ [(pklName t0, some r)],
      [.fetch, .existsCheck (pklName t0), .openWrite (pklName t0),
        .dump (pklName t0)]⟩ : RunResult Rec).dir =
    d ++ [(pklName t0, some r)] from rfl, ho2]
  refine ⟨rfl, rfl, rfl, ?_⟩
  simp [List.count_cons, List.count_append]

/-- Witness for C7: empty partition, budget 5, both calls at instant 0,
first fetch returns one volume. -/
theorem C7_second_call_reuses_witness :
    (0 : Int) ≤ 5 ∧
    decideRefresh false
        (get_last_file_timestamp (dirNames ([] : Dir EBSVolume))) 0 5 = true ∧
    [sampleVolume] ≠ [] ∧
    (0 : Int) - 0 ≤ 5 ∧
    (track_results 5 false 0 (Except.ok [sampleVolume])
        ([] : Dir EBSVolume)).res = .ok [sampleVolume] ∧
    (track_results 5 false 0 (Except.error PyErr.apiErr)
        (track_results 5 false 0 (Except.ok [sampleVolume])
          ([] : Dir EBSVolume)).dir).res = .ok [sampleVolume] :=
  ⟨by decide, by decide, by decide, by decide,
    (C7_second_call_reuses ([] : Dir EBSVolume) 5 0 0 [sampleVolume]
      (Except.error PyErr.apiErr) (by decide) (by decide) (by decide)
      (by decide)).1,
    (C7_second_call_reuses ([] : Dir EBSVolume) 5 0 0 [sampleVolume]
      (Except.error PyErr.apiErr) (by decide) (by decide) (by decide)
      (by decide)).2.1⟩

/-! ### Pruning old snapshots (C9) -/

/-- The timestamp carried by the running maximum state of `cleanupGo`. -/
def stVals (last : Option (Int × List Char)) : List Int :=
  match last with
  | none => []
  | some p => [p.1]

theorem cleanupGo_cons_none (g : List Char) (rest : List (List Char))
    (last : Option (Int × List Char)) (dels : List (List Char))
    (hg : parseTs g = none) :
    cleanupGo (g :: rest) last dels = cleanupGo rest last dels := by
  simp only [cleanupGo, hg]

theorem cleanupGo_cons_some_none (g : List Char) (rest : List (List Char))
    (ts : Int) (dels : List (List Char)) (hg : parseTs g = some ts) :
    cleanupGo (g :: rest) none dels = cleanupGo rest (some (ts, g)) dels := by
  simp only [cleanupGo, hg]

theorem cleanupGo_cons_some_some (g : List Char) (rest : List (List Char))
    (ts l : Int) (lf : List Char) (dels : List (List Char))
    (hg : parseTs g = some ts) :
    cleanupGo (g :: rest) (some (l, lf)) dels =
      if ts > l then cleanupGo rest (some (ts, g)) (dels ++ [lf])
      else cleanupGo rest (some (l, lf)) (dels ++ [g]) := by
  simp only [cleanupGo, hg]

theorem mem_dels_cleanupGo :
    ∀ (names : List (List Char)) (last : Option (Int × List Char))
      (dels : List (List Char)) (fn : List Char),
      fn ∈ dels → fn ∈ cleanupGo names last dels := by
  intro names
  induction names with
  | nil => intro last dels fn h; exact h
  | cons g rest ih =>
    intro last dels fn h
    cases hg : parseTs g with
    | none =>
      rw [cleanupGo_cons_none g rest last dels hg]
      exact ih last dels fn h
    | some ts =>
      cases last with
      | none =>
        rw [cleanupGo_cons_some_none g rest ts dels hg]
        exact ih _ dels fn h
      | some p =>
        rcases p with ⟨l, lf⟩
        rw [cleanupGo_cons_some_some g rest ts l lf dels hg]
        by_cases hts : ts > l
        · rw [if_pos hts]
          exact ih _ _ fn (by simp [h])
        · rw [if_neg hts]
          exact ih _ _ fn (by simp [h])

theorem cleanupGo_numeric :
    ∀ (names : List (List Char)) (last : Option (Int × List Char))
      (dels : List (List Char)),
      (∀ p, last = some p → parseTs p.2 = some p.1) →
      ∀ fn, fn ∈ cleanupGo names last dels →
        fn ∈ dels ∨ ∃ t, parseTs fn = some t := by
  intro names
  induction names with
  | nil =>
    intro last dels _ fn h
    exact Or.inl h
  | cons g rest ih =>
    intro last dels hinv fn h
    cases hg : parseTs g with
    | none =>
      rw [cleanupGo_cons_none g rest last dels hg] at h
      exact ih last dels hinv fn h
    | some ts =>
      cases last with
      | none =>
        rw [cleanupGo_cons_some_none g rest ts dels hg] at h
        exact ih _ dels
          (by intro p hp; rcases Option.some_inj.1 hp with rfl; exact hg) fn h
      | some p =>
        rcases p with ⟨l, lf⟩
        rw [cleanupGo_cons_some_some g rest ts l lf dels hg] at h
        by_cases hts : ts > l
        · rw [if_pos hts] at h
          rcases ih _ _
            (by intro p hp; rcases Option.some_inj.1 hp with rfl; exact hg)
            fn h with hin | hnum
          · rcases List.mem_append.1 hin with hin | hin
            · exact Or.inl hin
            · rcases List.mem_singleton.1 hin with rfl
              exact Or.inr ⟨l, hinv (l, fn) rfl⟩
          · exact Or.inr hnum
        · rw [if_neg hts] at h
          rcases ih _ _ hinv fn h with hin | hnum
          · rcases List.mem_append.1 hin with hin | hin
            · exact Or.inl hin
            · rcases List.mem_singleton.1 hin with rfl
              exact Or.inr ⟨ts, hg⟩
          · exact Or.inr hnum

theorem cleanupGo_overtaken :
    ∀ (rest : List (List Char)) (l : Int) (lf : List Char)
      (dels : List (List Char)),
      (∃ t ∈ rest.filterMap parseTs, l < t) →
      lf ∈ cleanupGo rest (some (l, lf)) dels := by
  intro rest
  induction rest with
  | nil =>
    intro l lf dels h
    rcases h with ⟨t, ht, _⟩
    cases ht
  | cons g rest ih =>
    intro l lf dels h
    cases hg : parseTs g with
    | none =>
      rw [cleanupGo_cons_none g rest _ dels hg]
      apply ih
      rcases h with ⟨t, ht, hlt⟩
      rw [List.filterMap_cons, hg] at ht
      exact ⟨t, ht, hlt⟩
    | some ts =>
      rw [cleanupGo_cons_some_some g rest ts l lf dels hg]
      by_cases hts : ts > l
      · rw [if_pos hts]
        exact mem_dels_cleanupGo rest _ _ lf (by simp)
      · rw [if_neg hts]
        apply ih
        rcases h with ⟨t, ht, hlt⟩
        rw [List.filterMap_cons, hg] at ht
        rcases List.mem_cons.1 ht with rfl | ht'
        · omega
        · exact ⟨t, ht', hlt⟩

theorem cleanupGo_keep :
    ∀ (rest : List (List Char)) (l : Int) (lf : List Char)
      (dels : List (List Char)),
      (∀ t ∈ rest.filterMap parseTs, t ≤ l) →
      lf ∉ dels → lf ∉ rest →
      lf ∉ cleanupGo rest (some (l, lf)) dels := by
  intro rest
  induction rest with
  | nil =>
    intro l lf dels _ hdels _
    exact hdels
  | cons g rest ih =>
    intro l lf dels hle hdels hmem
    have hglf : g ≠ lf := fun hh => hmem (by simp [hh])
    have hmem' : lf ∉ rest := fun hh => hmem (by simp [hh])
    cases hg : parseTs g with
    | none =>
      rw [cleanupGo_cons_none g rest _ dels hg]
      exact ih l lf dels
        (fun t ht => hle t (by rw [List.filterMap_cons, hg]; exact ht))
        hdels hmem'
    | some ts =>
      have hts : ¬ ts > l := by
        have := hle ts (by rw [List.filterMap_cons, hg]; simp)
        omega
      rw [cleanupGo_cons_some_some g rest ts l lf dels hg, if_neg hts]
      exact ih l lf (dels ++ [g])
        (fun t ht => hle t (by rw [List.filterMap_cons, hg]; simp [ht]))
        (by
          intro hin
          rcases List.mem_append.1 hin with hin | hin
          · exact hdels hin
          · exact hglf (List.mem_singleton.1 hin).symm)
        hmem'

theorem cleanup_max_kept :
    ∀ (names : List (List Char)) (last : Option (Int × List Char))
      (dels : List (List Char)) (fn : List Char) (m : Int),
      parseTs fn = some m →
      fn ∈ names →
      names.Nodup →
      (stVals last ++ names.filterMap parseTs).Nodup →
      (∀ t ∈ stVals last ++ names.filterMap parseTs, t ≤ m) →
      fn ∉ dels →
      (∀ p : Int × List Char, last = some p → p.2 ≠ fn) →
      fn ∉ cleanupGo names last dels := by
  intro names
  induction names with
  | nil =>
    intro last dels fn m _ hmem
    cases hmem
  | cons g rest ih =>
    intro last dels fn m hfn hmem hnd hnds hle hdels hlast
    have hndrest : rest.Nodup := (List.nodup_cons.1 hnd).2
    by_cases hgf : g = fn
    · subst hgf
      cases last with
      | none =>
        rw [cleanupGo_cons_some_none g rest m dels hfn]
        apply cleanupGo_keep
        · intro t ht
          apply hle
          simp only [stVals, List.nil_append, List.filterMap_cons, hfn]
          exact List.mem_cons.2 (Or.inr ht)
        · exact hdels
        · exact (List.nodup_cons.1 hnd).1
      | some p =>
        rcases p with ⟨l, lf⟩
        have hlm : l ≤ m := hle l (by simp [stVals])
        have hlnem : l ≠ m := by
          have hnotin : l ∉ (g :: rest).filterMap parseTs := by
            have h1 := hnds
            simp only [stVals, List.singleton_append, List.nodup_cons] at h1
            exact h1.1
          intro he
          apply hnotin
          rw [List.filterMap_cons, hfn]
          exact List.mem_cons.2 (Or.inl he)
        have hlt : m > l := lt_of_le_of_ne hlm hlnem
        rw [cleanupGo_cons_some_some g rest m l lf dels hfn, if_pos hlt]
        apply cleanupGo_keep
        · intro t ht
          apply hle
          simp only [stVals, List.singleton_append, List.filterMap_cons, hfn]
          exact List.mem_cons.2 (Or.inr (List.mem_cons.2 (Or.inr ht)))
        · intro hin
          rcases List.mem_append.1 hin with h1 | h1
          · exact hdels h1
          · exact hlast (l, lf) rfl (List.mem_singleton.1 h1).symm
        · exact (List.nodup_cons.1 hnd).1
    · have hmem' : fn ∈ rest := by
        rcases List.mem_cons.1 hmem with h | h
        · exact absurd h.symm hgf
        · exact h
      cases hg : parseTs g with
      | none =>
        rw [cleanupGo_cons_none g rest last dels hg]
        refine ih last dels fn m hfn hmem' hndrest ?_ ?_ hdels hlast
        · have := hnds
          rwa [List.filterMap_cons, hg] at this
        · intro t ht
          apply hle
          rwa [List.filterMap_cons, hg]
      | some ts =>
        cases last with
        | none =>
          rw [cleanupGo_cons_some_none g rest ts dels hg]
          refine ih (some (ts, g)) dels fn m hfn hmem' hndrest ?_ ?_ hdels ?_
          · have := hnds
            simp only [stVals, List.nil_append, List.filterMap_cons, hg] at this
            simpa [stVals] using this
          · intro t ht
            apply hle
            simp only [stVals, List.singleton_append] at ht
            simp only [stVals, List.nil_append, List.filterMap_cons, hg]
            exact ht
          · intro p hp
            rcases Option.some_inj.1 hp with rfl
            exact fun hh => hgf hh
        | some p =>
          rcases p with ⟨l, lf⟩
          rw [cleanupGo_cons_some_some g rest ts l lf dels hg]
          have hnds' := hnds
          simp only [stVals, List.singleton_append, List.filterMap_cons, hg]
            at hnds'
          -- hnds' : (l :: ts :: rest.filterMap parseTs).Nodup
          by_cases hts : ts > l
          · rw [if_pos hts]
            refine ih (some (ts, g)) (dels ++ [lf]) fn m hfn hmem' hndrest ?_
              ?_ ?_ ?_
            · simp only [stVals, List.singleton_append]
              exact (List.nodup_cons.1 hnds').2
            · intro t ht
              apply hle
              simp only [stVals, List.singleton_append] at ht
              simp only [stVals, List.singleton_append, List.filterMap_cons, hg]
              exact List.mem_cons.2 (Or.inr ht)
            · intro hin
              rcases List.mem_append.1 hin with h1 | h1
              · exact hdels h1
              · exact hlast (l, lf) rfl (List.mem_singleton.1 h1).symm
            · intro p hp
              rcases Option.some_inj.1 hp with rfl
              exact fun hh => hgf hh
          · rw [if_neg hts]
            refine ih (some (l, lf)) (dels ++ [g]) fn m hfn hmem' hndrest ?_
              ?_ ?_ ?_
            · simp only [stVals, List.singleton_append]
              rw [List.nodup_cons]
              constructor
              · have h1 := (List.nodup_cons.1 hnds').1
                intro hh
                exact h1 (List.mem_cons.2 (Or.inr hh))
              · exact (List.nodup_cons.1 ((List.nodup_cons.1 hnds').2)).2
            · intro t ht
              apply hle
              simp only [stVals, List.singleton_append] at ht
              simp only [stVals, List.singleton_append, List.filterMap_cons, hg]
              rcases List.mem_cons.1 ht with rfl | ht'
              · exact List.mem_cons.2 (Or.inl rfl)
              · exact List.mem_cons.2 (Or.inr (List.mem_cons.2 (Or.inr ht')))
            · intro hin
              rcases List.mem_append.1 hin with h1 | h1
              · exact hdels h1
              · exact hgf (List.mem_singleton.1 h1).symm
            · exact hlast

theorem cleanup_nonmax_deleted :
    ∀ (names : List (List Char)) (last : Option (Int × List Char))
      (dels : List (List Char)) (fn : List Char) (t : Int),
      parseTs fn = some t →
      fn ∈ names →
      (∃ v ∈ stVals last ++ names.filterMap parseTs, t < v) →
      fn ∈ cleanupGo names last dels := by
  intro names
  induction names with
  | nil =>
    intro last dels fn t _ hmem
    cases hmem
  | cons g rest ih =>
    intro last dels fn t hfn hmem hwit
    by_cases hgf : g = fn
    · subst hgf
      cases last with
      | none =>
        rw [cleanupGo_cons_some_none g rest t dels hfn]
        apply cleanupGo_overtaken
        rcases hwit with ⟨v, hv, hlt⟩
        simp only [stVals, List.nil_append, List.filterMap_cons, hfn] at hv
        rcases List.mem_cons.1 hv with rfl | hv'
        · omega
        · exact ⟨v, hv', hlt⟩
      | some p =>
        rcases p with ⟨l, lf⟩
        rw [cleanupGo_cons_some_some g rest t l lf dels hfn]
        by_cases hts : t > l
        · rw [if_pos hts]
          apply cleanupGo_overtaken
          rcases hwit with ⟨v, hv, hlt⟩
          simp only [stVals, List.singleton_append, List.filterMap_cons, hfn]
            at hv
          rcases List.mem_cons.1 hv with rfl | hv'
          · omega
          · rcases List.mem_cons.1 hv' with rfl | hv''
            · omega
            · exact ⟨v, hv'', hlt⟩
        · rw [if_neg hts]
          exact mem_dels_cleanupGo rest _ _ g (by simp)
    · have hmem' : fn ∈ rest := by
        rcases List.mem_cons.1 hmem with h | h
        · exact absurd h.symm hgf
        · exact h
      cases hg : parseTs g with
      | none =>
        rw [cleanupGo_cons_none g rest last dels hg]
        apply ih last dels fn t hfn hmem'
        rcases hwit with ⟨v, hv, hlt⟩
        rw [List.filterMap_cons, hg] at hv
        exact ⟨v, hv, hlt⟩
      | some ts =>
        cases last with
        | none =>
          rw [cleanupGo_cons_some_none g rest ts dels hg]
          apply ih (some (ts, g)) dels fn t hfn hmem'
          rcases hwit with ⟨v, hv, hlt⟩
          simp only [stVals, List.nil_append, List.filterMap_cons, hg] at hv
          exact ⟨v, by simpa [stVals] using hv, hlt⟩
        | some p =>
          rcases p with ⟨l, lf⟩
          rw [cleanupGo_cons_some_some g rest ts l lf dels hg]
          rcases hwit with ⟨v, hv, hlt⟩
          simp only [stVals, List.singleton_append, List.filterMap_cons, hg]
            at hv
          by_cases hts : ts > l
          · rw [if_pos hts]
            apply ih (some (ts, g)) (dels ++ [lf]) fn t hfn hmem'
            simp only [stVals, List.singleton_append]
            rcases List.mem_cons.1 hv with rfl | hv'
            · exact ⟨ts, List.mem_cons.2 (Or.inl rfl), by omega⟩
            · rcases List.mem_cons.1 hv' with rfl | hv''
              · exact ⟨v, List.mem_cons.2 (Or.inl rfl), hlt⟩
              · exact ⟨v, List.mem_cons.2 (Or.inr hv''), hlt⟩
          · rw [if_neg hts]
            apply ih (some (l, lf)) (dels ++ [g]) fn t hfn hmem'
            simp only [stVals, List.singleton_append]
            rcases List.mem_cons.1 hv with rfl | hv'
            · exact ⟨v, List.mem_cons.2 (Or.inl rfl), hlt⟩
            · rcases List.mem_cons.1 hv' with rfl | hv''
              · exact ⟨l, List.mem_cons.2 (Or.inl rfl), by omega⟩
              · exact ⟨v, List.mem_cons.2 (Or.inr hv''), hlt⟩

theorem dirNames_writeFile_mono {Rec : Type} (d : Dir Rec) (fn : List Char)
    (c : List Rec) : ∀ x ∈ dirNames d, x ∈ dirNames (writeFile d fn c) := by
  unfold writeFile
  by_cases h : d.any (fun e => decide (e.1 = fn))
  · rw [if_pos h]
    have heq : dirNames (d.map (fun e => if e.1 = fn then (fn, some c) else e))
        = dirNames d := by
      unfold dirNames
      rw [List.map_map]
      apply List.map_congr_left
      intro e _
      by_cases h1 : e.1 = fn
      · simp [Function.comp, h1]
      · simp [Function.comp, h1]
    rw [heq]
    intro x hx
    exact hx
  · rw [if_neg h]
    intro x hx
    unfold dirNames at *
    rw [List.map_append, List.mem_append]
    exact Or.inl hx

theorem track_results_never_removes {Rec : Type} (budget now : Int)
    (force : Bool) (fetch : Except PyErr (List Rec)) (d : Dir Rec) :
    ((track_results budget force now fetch d).trace.any StoreOp.isRemove)
        = false ∧
    ∀ fn ∈ dirNames d,
      fn ∈ dirNames (track_results budget force now fetch d).dir := by
  by_cases h : decideRefresh force (get_last_file_timestamp (dirNames d)) now
      budget = true
  · by_cases hr : (pyResults fetch).isEmpty
    · constructor
      · simp [track_results, h, hr, StoreOp.isRemove]
      · intro fn hfn
        simp only [track_results, h, hr]
        simpa [h, hr] using hfn
    · simp only [Bool.not_eq_true] at hr
      constructor
      · simp [track_results, h, hr, StoreOp.isRemove]
      · intro fn hfn
        have hdir : (track_results budget force now fetch d).dir =
            writeFile d (pklName now) (pyResults fetch) := by
          simp [track_results, h, hr]
        rw [hdir]
        exact dirNames_writeFile_mono d _ _ fn hfn
  · rw [Bool.not_eq_true] at h
    rcases hl : lookupFile d (lastFileName
        (get_last_file_timestamp (dirNames d))) with _ | c
    · constructor
      · simp [track_results, h, hl, StoreOp.isRemove]
      · intro fn hfn
        simpa [track_results, h, hl] using hfn
    · cases c with
      | none =>
        constructor
        · simp [track_results, h, hl, StoreOp.isRemove]
        · intro fn hfn
          simpa [track_results, h, hl] using hfn
      | some content =>
        constructor
        · simp [track_results, h, hl, StoreOp.isRemove]
        · intro fn hfn
          simpa [track_results, h, hl] using hfn

/-- C9: on a partition whose listed names are distinct and whose parsed
instants are distinct, `cleanup_old_data` deletes exactly the parsable
files that do not carry the maximum instant — the maximum file survives
and non-numeric names are never deleted; the fetch/read path
(`track_results`) removes nothing and never drops a directory entry; and
the standalone `utils.main` entry point deletes only when its cleanup flag
is given. -/
theorem C9_prune_keeps_max (names : List (List Char))
    (hnd : names.Nodup)
    (hnds : (names.filterMap parseTs).Nodup) :
    (∀ fn ∈ cleanupPartition names, ∃ t, parseTs fn = some t) ∧
    (∀ fn m, parseTs fn = some m → fn ∈ names →
      (∀ t ∈ names.filterMap parseTs, t ≤ m) →
      fn ∉ cleanupPartition names) ∧
    (∀ fn t, parseTs fn = some t → fn ∈ names →
      (∃ v ∈ names.filterMap parseTs, t < v) →
      fn ∈ cleanupPartition names) ∧
    (∀ (budget now : Int) (force : Bool)
      (fetch : Except PyErr (List EBSVolume)) (d : Dir EBSVolume),
      ((track_results budget force now fetch d).trace.any StoreOp.isRemove)
          = false ∧
      ∀ fn ∈ dirNames d,
        fn ∈ dirNames (track_results budget force now fetch d).dir) ∧
    utilsMainDeletions false [names] = [[]] ∧
    utilsMainDeletions true [names] = [cleanupPartition names] := by
  refine ⟨?_, ?_, ?_, ?_, ?_, ?_⟩
  · intro fn hfn
    rcases cleanupGo_numeric names none [] (by rintro p hp; cases hp) fn hfn
      with h | h
    · cases h
    · exact h
  · intro fn m hfn hmem hle
    exact cleanup_max_kept names none [] fn m hfn hmem hnd
      (by simpa [stVals] using hnds)
      (by intro t ht; exact hle t (by simpa [stVals] using ht))
      (by simp)
      (by rintro p hp; cases hp)
  · intro fn t hfn hmem hwit
    apply cleanup_nonmax_deleted names none [] fn t hfn hmem
    rcases hwit with ⟨v, hv, hlt⟩
    exact ⟨v, by simpa [stVals] using hv, hlt⟩
  · intro budget now force fetch d
    exact track_results_never_removes budget now force fetch d
  · simp [utilsMainDeletions]
  · simp [utilsMainDeletions]

/-- Sample partition listing for the C9 witness: snapshots at instants
5, 9, 3 plus one non-numeric entry. -/
def samplePartitionNames : List (List Char) :=
  [['5', '.', 'p', 'k', 'l'], ['9', '.', 'p', 'k', 'l'],
   ['3', '.', 'p', 'k', 'l'], ['j', 'u', 'n', 'k']]

/-- Witness for C9: on {5, 9, 3, junk} the file `3.pkl` is deleted, the
maximum file `9.pkl` survives. -/
theorem C9_prune_keeps_max_witness :
    samplePartitionNames.Nodup ∧
    (samplePartitionNames.filterMap parseTs).Nodup ∧
    ['3', '.', 'p', 'k', 'l'] ∈ cleanupPartition samplePartitionNames ∧
    ['9', '.', 'p', 'k', 'l'] ∉ cleanupPartition samplePartitionNames :=
  ⟨by decide, by decide,
    (C9_prune_keeps_max samplePartitionNames (by decide) (by decide)).2.2.1
      ['3', '.', 'p', 'k', 'l'] 3 (by decide) (by decide)
      ⟨9, by decide, by decide⟩,
    (C9_prune_keeps_max samplePartitionNames (by decide) (by decide)).2.1
      ['9', '.', 'p', 'k', 'l'] 9 (by decide) (by decide) (by decide)⟩

end VoluMapper
